import Mathlib

/-!
Verification of the zkp-query circuit layer against its specification.

The definitions below are shallow embeddings of the witness-assignment
code of the repository (`src/circuit/*.rs`, `src/sql/mod.rs`,
`src/database/mod.rs`).  Machine integers (`u64`, `usize`) are modelled
as `Nat` with explicit `% 2 ^ 64` where the Rust code can wrap, and with
`Option`-valued checked subtraction where the Rust code would panic on
underflow.  Field elements of `pasta_curves::pallas::Base` are modelled
as `ZMod PallasP` with the actual Pallas base-field modulus.  Fallible
Rust functions returning `Result<_, Error>` are modelled with `Except`.
-/

namespace Poneglyph

/-- The modulus of `pasta_curves::pallas::Base` (the field `Fr` used by every
chip in `src/circuit`). -/
def PallasP : Nat :=
  28948022309329048855892746252171976963363056481941560715954676764349967630337

/-- The scalar field used by the circuits, `pasta_curves::pallas::Base as Fr`. -/
abbrev Fr : Type := ZMod PallasP

instance : Fact (1 < PallasP) := ⟨by norm_num [PallasP]⟩

instance : NeZero PallasP := ⟨by norm_num [PallasP]⟩

/-- `2^64`, the size of the `u64` value space. -/
def U64 : Nat := 2 ^ 64

/-- Checked `u64`/`usize` subtraction: Rust `a - b` panics (in debug builds)
when `b > a`; we model the panic as `none`. -/
def checkedSub (a b : Nat) : Option Nat :=
  if b ≤ a then some (a - b) else none

/-! ## Range Check gate (`src/circuit/range_check.rs`) -/

/-- The cells assigned by `RangeCheckChip::check_less_than` in its region
(`src/circuit/range_check.rs`, lines 358-460): `x` (advice[9] row 0), the
fixed `threshold` and `u`, the boolean `check` (advice[8] row 0), the
`diff` (advice[8] row 1) and whether the `diff` lookup selector was
enabled. -/
structure LessThanCells where
  x : Fr
  threshold : Fr
  u : Fr
  check : Fr
  diff : Fr
  diffLookupOn : Bool
deriving Repr

/-- Shallow embedding of `RangeCheckChip::check_less_than`: the witness
values it assigns.  `check = 1` when `x_val < threshold`, else `0`;
`diff = check + (x - t) - u` computed in the field; the diff lookup
selector is enabled exactly when `u < 256`.  The function returns the
`check` cell; we keep the whole region so the claim can speak about it. -/
def check_less_than (x threshold u : Nat) : LessThanCells :=
  let checkVal : Fr := if x < threshold then 1 else 0
  { x := (x : Fr)
    threshold := (threshold : Fr)
    u := (u : Fr)
    check := checkVal
    diff := checkVal + ((x : Fr) - (threshold : Fr)) - (u : Fr)
    diffLookupOn := decide (u < 256) }

/-- Shallow embedding of `RangeCheckChip::decompose_64bit`: the eight 8-bit
chunk cells assigned in row 1, chunk `i` being `(v >> (i*8)) & 0xFF`. -/
def decompose_64bit (v : Nat) : List Nat :=
  (List.range 8).map fun i => (v >>> (i * 8)) &&& 0xFF

/-! ## Database commitment (`src/database/mod.rs`) -/

/-- Shallow embedding of `DatabaseCommitment::hash_data`: the linear hash
`Σ (key · 1000000 + value)` accumulated over the `(u64, u64)` pairs in
the field. -/
def hash_data (data : List (Nat × Nat)) : Fr :=
  data.foldl (fun hash kv => hash + (kv.1 : Fr) * (1000000 : Fr) + (kv.2 : Fr)) 0

/-- The `DatabaseCommitment` struct: a commitment field element and the
hash of the data (`src/database/mod.rs`). -/
structure DatabaseCommitment where
  commitment : Fr
  data_hash : Fr

/-- Shallow embedding of `DatabaseCommitment::new`: hashes the data and
uses the hash directly as the commitment. -/
def DatabaseCommitment.new (data : List (Nat × Nat)) : DatabaseCommitment :=
  let dataHash := hash_data data
  { commitment := dataHash, data_hash := dataHash }

/-- Shallow embedding of `DatabaseCommitment::verify`: recomputes the hash
of the given data and compares it with the stored `data_hash`. -/
def DatabaseCommitment.verify (c : DatabaseCommitment) (data : List (Nat × Nat)) : Bool :=
  decide (hash_data data = c.data_hash)

/-! ## Circuit configuration (`src/circuit/config.rs`) -/

/-- The column counts declared by `PoneglyphConfig::configure`: 15 advice
columns, 2 fixed columns, and a single instance column
(`meta.instance_column()` is called exactly once). -/
structure PoneglyphColumnCounts where
  numAdvice : Nat
  numFixed : Nat
  numInstance : Nat
deriving DecidableEq, Repr

/-- Column counts of `PoneglyphConfig::configure`
(`src/circuit/config.rs`, lines 60-161). -/
def poneglyphColumns : PoneglyphColumnCounts :=
  { numAdvice := 15, numFixed := 2, numInstance := 1 }

/-- Shallow embedding of `PoneglyphConfig::get_public_input_layout`
(`src/circuit/config.rs`, lines 263-271).  In the halo2 instance
convention used by this repository (`MockProver::run` and
`src/prover/mod.rs`: "each inner vector is an instance column"), the
outer index ranges over instance columns and the inner index over rows. -/
def get_public_input_layout (db_commitment query_result : Fr) : List (List Fr) :=
  [[db_commitment], [query_result]]

/-! ## WHERE-clause compilation (`src/sql/mod.rs`) -/

/-- A compiled range-check operation (`RangeCheckOp` in `src/sql/mod.rs`):
a witness value, a public threshold and the residue `u`. -/
structure RangeCheckOp where
  value : Nat
  threshold : Nat
  u : Nat
deriving DecidableEq, Repr

/-- Shallow embedding of the `WhereClause::Equal` arm of
`PoneglyphCompiler::compile_where_clause` (`src/sql/mod.rs`, lines
532-553): for each value `val` of the resolved column it pushes a single
range-check op with `threshold = value + 1` and
`u = (value + 1) - val` when `val < value + 1`, else `0`. -/
def compile_where_equal (column_data : List Nat) (value : Nat) : List RangeCheckOp :=
  column_data.map fun val =>
    { value := val
      threshold := value + 1
      u := if val < value + 1 then (value + 1) - val else 0 }

/-- The boolean committed by the Range Check gate for an emitted op: by
`check_less_than`, the op's check passes (check = 1) exactly when
`value < threshold`. -/
def opPasses (op : RangeCheckOp) : Prop := op.value < op.threshold

instance (op : RangeCheckOp) : Decidable (opPasses op) := by
  unfold opPasses; infer_instance

/-! ## Sort gate (`src/circuit/sort.rs`) -/

/-- A run of checked `u64` subtractions `sv[i+1] - sv[i]` over a list of
indices, aborting at the first underflow (the Rust panic). -/
def subLoop (sv : List Nat) : List Nat → Option Unit
  | [] => some ()
  | i :: rest =>
    match checkedSub (sv.getD (i + 1) 0) (sv.getD i 0) with
    | none => none
    | some _ => subLoop sv rest

/-- The "output and sort checks" region loop of `SortChip::sort_and_verify`
(`src/circuit/sort.rs`, lines 179-211): for each row `i`, when
`i < sorted_values.len() - 1` it assigns `diff = sv[i+1] - sv[i]`, a `u64`
subtraction that underflows when the claimed sorted sequence decreases. -/
def outputRegionLoop (sv : List Nat) : List Nat → Option Unit
  | [] => some ()
  | i :: rest =>
    if i < sv.length - 1 then
      match checkedSub (sv.getD (i + 1) 0) (sv.getD i 0) with
      | none => none
      | some _ => outputRegionLoop sv rest
    else outputRegionLoop sv rest

/-- Shallow embedding of `SortChip::sort_and_verify`
(`src/circuit/sort.rs`, lines 140-241).  Region assignments that cannot
fail (input, sorted input, permutation equalities over equal-length cell
vectors) are elided; the two panic sites are kept: the `u64` diff
subtractions inside the output region, and the `usize` expression
`sorted_values.len() - 1` heading the decomposition loop, which
underflows on empty input.  A panic is modelled as `none`; a normal
return yields the output cells, which hold the sorted values. -/
def sort_and_verify (input : List Nat) (sorted_values : List Nat) :
    Option (List Nat) := do
  let _ ← outputRegionLoop sorted_values (List.range sorted_values.length)
  let n ← checkedSub sorted_values.length 1
  let _ ← subLoop sorted_values (List.range n)
  pure sorted_values

/-! ## Group-By gate (`src/circuit/group_by.rs`) -/

/-- Rust `x as i64` on a `u64` value: two's-complement reinterpretation. -/
def i64ofU64 (x : Nat) : Int :=
  if x < 2 ^ 63 then (x : Int) else (x : Int) - 2 ^ 64

/-- The boundary/inverse pair computed per consecutive key pair in
`GroupByChip::group_and_verify` (`src/circuit/group_by.rs`, lines
198-251): with `diff = v₂ as i64 - v₁ as i64`, if `diff == 0` the pair is
`(1, 0)` (new group flag set, zero inverse), otherwise the boundary is
`0` and the inverse is `1/diff_field` where `diff_field` is `diff`
injected into the field with its sign. -/
def boundaryInverse (v1 v2 : Nat) : Fr × Fr :=
  let diff : Int := i64ofU64 v2 - i64ofU64 v1
  if diff = 0 then (1, 0)
  else
    let diffField : Fr := if 0 < diff then (diff.toNat : Fr) else -(((-diff).toNat : Fr))
    (0, diffField⁻¹)

/-- Shallow embedding of `GroupByChip::group_and_verify`: the boundary
cells it returns.  Empty input yields no cells; a singleton yields a
single `0` flag; otherwise one flag per consecutive pair of keys. -/
def group_and_verify (group_keys : List Nat) : List Fr :=
  if group_keys.isEmpty then []
  else if group_keys.length = 1 then [(0 : Fr)]
  else
    (List.range (group_keys.length - 1)).map fun i =>
      (boundaryInverse (group_keys.getD i 0) (group_keys.getD (i + 1) 0)).1

/-! ## Join gate (`src/circuit/join.rs`) -/

/-- Rust `Vec::sort()` on `u64` keys: ascending stable sort, modelled by
insertion sort. -/
def sortAsc (l : List Nat) : List Nat := List.insertionSort (· ≤ ·) l

/-- One row of the join region assigned by
`JoinChip::assign_join_with_constraints`: the five advice cells
(advice[10..14]) and whether the join selector is enabled on the row. -/
structure JoinRow where
  key1 : Fr
  val1 : Fr
  key2 : Fr
  val2 : Fr
  matchFlag : Fr
  selectorOn : Bool
deriving Inhabited

/-- Shallow embedding of `JoinChip::assign_join_with_constraints`
(`src/circuit/join.rs`, lines 372-474): one row per index below
`max(|t1|, |t2|)`, keys and values zero-padded past the end of their
table; the match flag is `1` when both tables still have a record at `i`
and the keys agree, else `0`; the join selector is enabled exactly when
both tables have a record at `i`. -/
def assign_join_with_constraints
    (table1_keys table1_values table2_keys table2_values : List Nat) : List JoinRow :=
  (List.range (max table1_keys.length table2_keys.length)).map fun i =>
    { key1 := (table1_keys.getD i 0 : Fr)
      val1 := (table1_values.getD i 0 : Fr)
      key2 := (table2_keys.getD i 0 : Fr)
      val2 := (table2_values.getD i 0 : Fr)
      matchFlag :=
        if i < table1_keys.length ∧ i < table2_keys.length then
          if table1_keys.getD i 0 = table2_keys.getD i 0 then 1 else 0
        else 0
      selectorOn := decide (i < table1_keys.length ∧ i < table2_keys.length) }

/-- The `T_miss` collection pass of `JoinChip::verify_deduplication`
(`src/circuit/join.rs`, lines 294-303): for each `i` below the shorter
length, when the keys differ, `t1.keys[i]` goes to `T_miss1` and
`t2.keys[i]` to `T_miss2`. -/
def tMiss (t1k t2k : List Nat) : List Nat × List Nat :=
  let idx := (List.range (min t1k.length t2k.length)).filter
    fun i => decide (t1k.getD i 0 ≠ t2k.getD i 0)
  (idx.map fun i => t1k.getD i 0, idx.map fun i => t2k.getD i 0)

/-- Shallow embedding of `JoinChip::verify_deduplication`: collects the
miss records, returns early when both are empty, and otherwise sorts
each non-empty miss list through the Sort gate. -/
def verify_deduplication (t1k t2k : List Nat) : Option Unit :=
  if (tMiss t1k t2k).1.isEmpty ∧ (tMiss t1k t2k).2.isEmpty then
    pure ()
  else
    (if ¬ (tMiss t1k t2k).1.isEmpty then
        sort_and_verify (tMiss t1k t2k).1 (sortAsc (tMiss t1k t2k).1)
      else pure []).bind fun _ =>
      (if ¬ (tMiss t1k t2k).2.isEmpty then
          sort_and_verify (tMiss t1k t2k).2 (sortAsc (tMiss t1k t2k).2)
        else pure []).bind fun _ =>
        pure ()

/-- Shallow embedding of `JoinChip::join_and_verify`
(`src/circuit/join.rs`, lines 204-272): sorts each non-empty key list
through the Sort gate (keeping the sorted copies only in local
variables), then assigns the join rows from the *original* key lists,
then runs the deduplication pass.  Returns the match cells' rows. -/
def join_and_verify (t1k t1v t2k t2v : List Nat) : Option (List JoinRow) :=
  (if ¬ t1k.isEmpty then sort_and_verify t1k (sortAsc t1k) else pure []).bind fun _ =>
    (if ¬ t2k.isEmpty then sort_and_verify t2k (sortAsc t2k) else pure []).bind fun _ =>
      (verify_deduplication t1k t2k).bind fun _ =>
        some (assign_join_with_constraints t1k t1v t2k t2v)

/-! ## Aggregation gate (`src/circuit/aggregation.rs`) -/

/-- The halo2 plonk error as raised by the witness code of the gates: the
only variant used is `Error::Synthesis`. -/
inductive PlonkError where
  | synthesis
deriving DecidableEq, Repr

/-- The `first_result` match of `AggregationChip::aggregate_and_verify`
(`src/circuit/aggregation.rs`, lines 201-207), which is also the
`boundary = 1` (group restart) arm of the loop (lines 219-225):
`sum`/`max`/`min` restart from the row value, `count` from `1`; an
unrecognized kind string raises `Error::Synthesis`. -/
def aggFirst (agg_type : String) (x : Nat) : Except PlonkError Nat :=
  match agg_type with
  | "sum" => .ok x
  | "count" => .ok 1
  | "max" => .ok x
  | "min" => .ok x
  | _ => .error .synthesis

/-- The `boundary = 0` (same group) arm of the loop (lines 227-233): the
accumulator update in `u64` arithmetic, so `sum` and `count` wrap at
`2^64`. -/
def aggNext (agg_type : String) (r x : Nat) : Except PlonkError Nat :=
  match agg_type with
  | "sum" => .ok ((r + x) % U64)
  | "count" => .ok ((r + 1) % U64)
  | "max" => .ok (Nat.max r x)
  | "min" => .ok (Nat.min r x)
  | _ => .error .synthesis

/-- The `for i in 1..group_keys.len()` loop of `aggregate_and_verify`
(lines 211-237) over the remaining `(key, value)` pairs, carrying the
previous key and the current accumulator: the boundary flag is set iff
the key differs from the previous row's key, restarting the
accumulator. -/
def aggLoop (agg_type : String) (gprev r : Nat) :
    List (Nat × Nat) → Except PlonkError (List Nat)
  | [] => .ok []
  | (gi, vi) :: rest =>
    (if gi ≠ gprev then aggFirst agg_type vi else aggNext agg_type r vi).bind fun ri =>
      (aggLoop agg_type gi ri rest).map fun tail => ri :: tail

/-- Shallow embedding of `AggregationChip::aggregate_and_verify`
(`src/circuit/aggregation.rs`, lines 173-378): rejects length
mismatches with `Error::Synthesis`, returns `Ok` with no cells on empty
input, and otherwise runs the Group-By chip on the keys (cells
discarded) and computes the per-row `result_values`, which are the
values held by the returned result cells.  The MAX/MIN comparison
decompositions (`saturating_sub`, always in range) do not affect the
returned cells and are elided. -/
def aggregate_and_verify (group_keys values : List Nat) (agg_type : String) :
    Except PlonkError (List Nat) :=
  if group_keys.length ≠ values.length then .error .synthesis
  else if group_keys.isEmpty then .ok []
  else
    let _boundary_cells := group_and_verify group_keys
    (aggFirst agg_type (values.headD 0)).bind fun r0 =>
      (aggLoop agg_type (group_keys.headD 0) r0 (group_keys.tail.zip values.tail)).map
        fun rest => r0 :: rest

/-! ## Specification-side aggregation notions (claim C3) -/

/-- The values of the rows whose key equals `k`. -/
def keyVals (l : List (Nat × Nat)) (k : Nat) : List Nat :=
  (l.filter fun p => p.1 == k).map Prod.snd

/-- The values of the group with key `k` in parallel key/value columns. -/
def groupVals (g v : List Nat) (k : Nat) : List Nat := keyVals (g.zip v) k

/-- Row `i` is the last row of its group: the final row, or a row after
which the key changes. -/
def isLastRow (g : List Nat) (i : Nat) : Prop :=
  i + 1 = g.length ∨ g.getD i 0 ≠ g.getD (i + 1) 0

/-- The scalar aggregate of a group under the given kind: the sum of the
values, the number of rows, their maximum, or their minimum. -/
def isAggOf (agg_type : String) (vals : List Nat) (r : Nat) : Prop :=
  (agg_type = "sum" → r = vals.sum) ∧
  (agg_type = "count" → r = vals.length) ∧
  (agg_type = "max" → r ∈ vals ∧ ∀ x ∈ vals, x ≤ r) ∧
  (agg_type = "min" → r ∈ vals ∧ ∀ x ∈ vals, r ≤ x)

/-- Pure (non-wrapping) restart value of the aggregation recurrence. -/
def firstPure (agg_type : String) (x : Nat) : Nat :=
  match agg_type with
  | "sum" => x
  | "count" => 1
  | "max" => x
  | "min" => x
  | _ => 0

/-- Pure (non-wrapping) accumulator update of the aggregation recurrence. -/
def stepPure (agg_type : String) (r x : Nat) : Nat :=
  match agg_type with
  | "sum" => r + x
  | "count" => r + 1
  | "max" => Nat.max r x
  | "min" => Nat.min r x
  | _ => 0

/-- The pure aggregate of a value list under the recurrence. -/
def aggOf (agg_type : String) : List Nat → Nat
  | [] => 0
  | x :: xs => xs.foldl (stepPure agg_type) (firstPure agg_type x)

/-! ## Helper lemmas for the Sort and Group-By gates -/

lemma checkedSub_pos {a b : Nat} (h : b ≤ a) : checkedSub a b = some (a - b) :=
  if_pos h

lemma checkedSub_neg {a b : Nat} (h : ¬ b ≤ a) : checkedSub a b = none :=
  if_neg h

lemma subLoop_eq_some (sv : List Nat) :
    ∀ l : List Nat, subLoop sv l = some () ↔
      ∀ i ∈ l, sv.getD i 0 ≤ sv.getD (i + 1) 0 := by
  intro l
  induction l with
  | nil => simp [subLoop]
  | cons i rest ih =>
    by_cases h : sv.getD i 0 ≤ sv.getD (i + 1) 0
    · rw [subLoop, checkedSub_pos h]
      show subLoop sv rest = some () ↔ _
      rw [ih]
      constructor
      · intro hr j hj
        rcases List.mem_cons.mp hj with rfl | hj'
        · exact h
        · exact hr j hj'
      · intro hr j hj
        exact hr j (List.mem_cons_of_mem i hj)
    · rw [subLoop, checkedSub_neg h]
      exact iff_of_false (by simp) fun hall => h (hall i (List.mem_cons_self i rest))

lemma outputRegionLoop_eq_some (sv : List Nat) :
    ∀ l : List Nat, outputRegionLoop sv l = some () ↔
      ∀ i ∈ l, i < sv.length - 1 → sv.getD i 0 ≤ sv.getD (i + 1) 0 := by
  intro l
  induction l with
  | nil => simp [outputRegionLoop]
  | cons i rest ih =>
    by_cases hg : i < sv.length - 1
    · by_cases h : sv.getD i 0 ≤ sv.getD (i + 1) 0
      · rw [outputRegionLoop, if_pos hg, checkedSub_pos h]
        show outputRegionLoop sv rest = some () ↔ _
        rw [ih]
        constructor
        · intro hr j hj hjlt
          rcases List.mem_cons.mp hj with rfl | hj'
          · exact h
          · exact hr j hj' hjlt
        · intro hr j hj
          exact hr j (List.mem_cons_of_mem i hj)
      · rw [outputRegionLoop, if_pos hg, checkedSub_neg h]
        exact iff_of_false (by simp)
          fun hall => h (hall i (List.mem_cons_self i rest) hg)
    · rw [outputRegionLoop, if_neg hg]
      rw [ih]
      constructor
      · intro hr j hj hjlt
        rcases List.mem_cons.mp hj with rfl | hj'
        · exact absurd hjlt hg
        · exact hr j hj' hjlt
      · intro hr j hj
        exact hr j (List.mem_cons_of_mem i hj)

lemma chain'_le_iff_getD (l : List Nat) :
    List.Chain' (· ≤ ·) l ↔ ∀ i < l.length - 1, l.getD i 0 ≤ l.getD (i + 1) 0 := by
  rw [List.chain'_iff_get]
  constructor
  · intro h i hi
    have h1 : i < l.length := by omega
    have h2 : i + 1 < l.length := by omega
    rw [List.getD_eq_getElem _ _ h1, List.getD_eq_getElem _ _ h2]
    simpa using h i hi
  · intro h i hi
    have h1 : i < l.length := by omega
    have h2 : i + 1 < l.length := by omega
    have := h i hi
    rw [List.getD_eq_getElem _ _ h1, List.getD_eq_getElem _ _ h2] at this
    simpa using this

lemma sort_and_verify_eq (input sv : List Nat) :
    sort_and_verify input sv =
      (outputRegionLoop sv (List.range sv.length)).bind fun _ =>
        (checkedSub sv.length 1).bind fun n =>
          (subLoop sv (List.range n)).bind fun _ => some sv := rfl

lemma i64ofU64_inj {a b : Nat} (ha : a < 2 ^ 64) (hb : b < 2 ^ 64) :
    i64ofU64 a = i64ofU64 b ↔ a = b := by
  unfold i64ofU64
  split_ifs <;> omega

lemma group_and_verify_getD (v : List Nat) (i : Nat)
    (h2 : 2 ≤ v.length) (hi : i < v.length - 1) :
    (group_and_verify v).getD i 0 =
      (boundaryInverse (v.getD i 0) (v.getD (i + 1) 0)).1 := by
  have h0 : v.isEmpty = false := by
    cases v with
    | nil => simp at h2
    | cons a t => simp
  have h1 : ¬ v.length = 1 := by omega
  unfold group_and_verify
  rw [if_neg (by simp [h0]), if_neg h1]
  have hmap : i < ((List.range (v.length - 1)).map fun i =>
      (boundaryInverse (v.getD i 0) (v.getD (i + 1) 0)).1).length := by
    simpa using hi
  rw [List.getD_eq_getElem _ _ hmap]
  simp

/-! ## Theorems for claims C9 and C1 -/

lemma sort_and_verify_isSome_iff (input sorted_values : List Nat) :
    (sort_and_verify input sorted_values).isSome ↔
      sorted_values ≠ [] ∧ List.Chain' (· ≤ ·) sorted_values := by
  cases sorted_values with
  | nil => simp [sort_and_verify, outputRegionLoop, checkedSub]
  | cons a t =>
    have hlen : checkedSub (a :: t).length 1 = some t.length := by
      simp [checkedSub]
    have key : (sort_and_verify input (a :: t)).isSome ↔
        outputRegionLoop (a :: t) (List.range (a :: t).length) = some () ∧
          subLoop (a :: t) (List.range t.length) = some () := by
      cases hreg : outputRegionLoop (a :: t) (List.range (a :: t).length) with
      | none =>
        rw [sort_and_verify_eq, hreg]
        simp
      | some u =>
        obtain rfl : u = () := rfl
        cases hsub : subLoop (a :: t) (List.range t.length) with
        | none =>
          rw [sort_and_verify_eq, hreg, hlen]
          simp [hsub]
        | some u2 =>
          obtain rfl : u2 = () := rfl
          rw [sort_and_verify_eq, hreg, hlen]
          simp [hsub]
    rw [key, outputRegionLoop_eq_some, subLoop_eq_some, chain'_le_iff_getD]
    simp only [List.length_cons, List.mem_range, Nat.add_sub_cancel, ne_eq,
      reduceCtorEq, not_false_eq_true, true_and]
    constructor
    · rintro ⟨hreg, -⟩ i hi
      exact hreg i (by omega) (by omega)
    · intro hchain
      exact ⟨fun i _ hi => hchain i (by omega), fun i hi => hchain i (by omega)⟩

/-- Claim C9 (confirmed): `SortChip::sort_and_verify` is panic-free exactly
under the precondition that `sorted_values` is non-empty and
non-decreasing: on empty input `sorted_values.len() - 1` underflows, on a
decreasing adjacent pair the `u64` diff subtraction underflows, and under
the precondition every subtraction is in range and the function returns
normally. -/
theorem C9_sort_panic_freedom (input sorted_values : List Nat) :
    (sort_and_verify input sorted_values).isSome ↔
      sorted_values ≠ [] ∧ List.Chain' (· ≤ ·) sorted_values :=
  sort_and_verify_isSome_iff input sorted_values

/-- Claim C9 witness: the theorem instantiated at the concrete sorted
sequence `[3, 5]`, which the function accepts. -/
theorem C9_witness :
    ([3, 5] : List Nat) ≠ [] ∧ List.Chain' (· ≤ ·) [3, 5] ∧
      (sort_and_verify [] [3, 5]).isSome = true := by
  have hch : List.Chain' (· ≤ ·) ([3, 5] : List Nat) := List.chain'_pair.mpr (by norm_num)
  exact ⟨by simp, hch, (C9_sort_panic_freedom [] [3, 5]).mpr ⟨by simp, hch⟩⟩

/-- Claim C1 counterexample: for the sorted keys `[0, 1]` of length 2 and
index 0, the keys differ (`v[0] ≠ v[1]`), yet the boundary flag assigned
by `GroupByChip::group_and_verify` is `0`, not `1` as the claim states. -/
theorem C1_counterexample :
    List.Chain' (· ≤ ·) [0, 1] ∧ ([0, 1] : List Nat).length = 2 ∧
      ([0, 1] : List Nat).getD 0 0 ≠ ([0, 1] : List Nat).getD 1 0 ∧
      (group_and_verify [0, 1]).getD 0 0 = 0 ∧
      (group_and_verify [0, 1]).getD 0 0 ≠ 1 := by
  refine ⟨List.chain'_pair.mpr (by norm_num), by decide, by decide, ?_, ?_⟩
  · rfl
  · intro h
    have h0 : (group_and_verify [0, 1]).getD 0 0 = 0 := rfl
    rw [h0] at h
    exact zero_ne_one h

/-- Claim C1 (corrected): for every sorted `u64` key sequence `v` of length
at least 2 and every index `i < len(v) - 1`, the boundary flag assigned
by `GroupByChip::group_and_verify` at position `i` equals `1` iff
`v[i] = v[i+1]` (the flag marks *equal* consecutive keys), and equals `0`
iff `v[i] ≠ v[i+1]`. -/
theorem C1_boundary_flag (v : List Nat) (i : Nat)
    (hu : ∀ x ∈ v, x < 2 ^ 64) (hs : List.Chain' (· ≤ ·) v)
    (h2 : 2 ≤ v.length) (hi : i < v.length - 1) :
    ((group_and_verify v).getD i 0 = 1 ↔ v.getD i 0 = v.getD (i + 1) 0) ∧
      ((group_and_verify v).getD i 0 = 0 ↔ v.getD i 0 ≠ v.getD (i + 1) 0) := by
  rw [group_and_verify_getD v i h2 hi]
  have ha : v.getD i 0 < 2 ^ 64 := by
    have h1 : i < v.length := by omega
    rw [List.getD_eq_getElem _ _ h1]
    exact hu _ (List.getElem_mem _)
  have hb : v.getD (i + 1) 0 < 2 ^ 64 := by
    have h1 : i + 1 < v.length := by omega
    rw [List.getD_eq_getElem _ _ h1]
    exact hu _ (List.getElem_mem _)
  set a := v.getD i 0 with hA
  set b := v.getD (i + 1) 0 with hB
  simp only [boundaryInverse]
  by_cases hab : a = b
  · have hz : i64ofU64 b - i64ofU64 a = 0 := by rw [hab, sub_self]
    rw [if_pos hz]
    refine ⟨⟨fun _ => hab, fun _ => rfl⟩, ?_, ?_⟩
    · intro h10
      exact absurd h10 one_ne_zero
    · intro hne
      exact absurd hab hne
  · have hz : ¬ (i64ofU64 b - i64ofU64 a = 0) := by
      intro h
      exact hab (((i64ofU64_inj hb ha).mp (sub_eq_zero.mp h)).symm)
    rw [if_neg hz]
    refine ⟨⟨?_, fun heq => absurd heq hab⟩, fun _ => hab, fun _ => rfl⟩
    intro h01
    exact absurd h01.symm one_ne_zero

/-- Claim C1 witness: on the sorted keys `[5, 5, 7]` the flag at position 0
(equal consecutive keys) is `1`. -/
theorem C1_witness :
    2 ≤ ([5, 5, 7] : List Nat).length ∧ (group_and_verify [5, 5, 7]).getD 0 0 = 1 :=
  ⟨by decide,
    (C1_boundary_flag [5, 5, 7] 0 (by decide)
      (List.chain'_cons.mpr ⟨by norm_num, List.chain'_pair.mpr (by norm_num)⟩)
      (by decide) (by decide)).1.mpr rfl⟩

/-! ## Theorems for claims C4, C8, C6, C5 -/

/-- Claim C4 (confirmed): for every `x` and threshold `t` (u64) and every
residue `u`, `RangeCheckChip::check_less_than` assigns a check witness
equal to `1` exactly when `x < t` and equal to `0` exactly when
`x ≥ t`: the returned cell always holds the boolean `[x < t]`. -/
theorem C4_check_less_than_boolean (x t u : Nat) :
    ((check_less_than x t u).check = 1 ↔ x < t) ∧
      ((check_less_than x t u).check = 0 ↔ ¬ x < t) := by
  unfold check_less_than
  by_cases h : x < t <;>
    simp [h, (one_ne_zero : (1 : Fr) ≠ 0), (zero_ne_one : (0 : Fr) ≠ 1)]

/-- Claim C4 witness: the theorem at `x = 3`, `t = 5`, `u = 2`. -/
theorem C4_witness :
    ((check_less_than 3 5 2).check = 1 ↔ 3 < 5) ∧
      ((check_less_than 3 5 2).check = 0 ↔ ¬ 3 < 5) :=
  C4_check_less_than_boolean 3 5 2

/-- Claim C8 (confirmed): the database commitment is a deterministic
function of the `(u64, u64)` pair list — equal lists give equal
commitment field elements — and `DatabaseCommitment::new(data).verify(data)`
round-trips to `true`. -/
theorem C8_commitment_deterministic_roundtrip (d1 d2 : List (Nat × Nat))
    (h : d1 = d2) :
    (DatabaseCommitment.new d1).commitment = (DatabaseCommitment.new d2).commitment ∧
      (DatabaseCommitment.new d1).verify d1 = true := by
  subst h
  refine ⟨rfl, ?_⟩
  unfold DatabaseCommitment.verify DatabaseCommitment.new
  exact decide_eq_true rfl

/-- Claim C8 witness: the theorem applied at the concrete pair list
`[(1, 2), (3, 4)]`. -/
theorem C8_witness :
    (DatabaseCommitment.new [(1, 2), (3, 4)]).commitment =
        (DatabaseCommitment.new [(1, 2), (3, 4)]).commitment ∧
      (DatabaseCommitment.new [(1, 2), (3, 4)]).verify [(1, 2), (3, 4)] = true :=
  C8_commitment_deterministic_roundtrip [(1, 2), (3, 4)] [(1, 2), (3, 4)] rfl

/-- Claim C6 (code bug): the circuit declares a single instance column and
the convention is two rows (commitment, result) in that one column, but
`get_public_input_layout` returns `[[commitment], [result]]` — two
instance columns holding one row each — instead of the single column
`[[commitment, result]]`; its length does not match the circuit's one
instance column. -/
theorem C6_layout_bug :
    poneglyphColumns.numInstance = 1 ∧
      (get_public_input_layout 7 9).length = 2 ∧
      (get_public_input_layout 7 9).length ≠ poneglyphColumns.numInstance ∧
      get_public_input_layout 7 9 ≠ [[7, 9]] := by
  refine ⟨rfl, rfl, by simp [get_public_input_layout, poneglyphColumns], ?_⟩
  simp [get_public_input_layout]

/-- Claim C5 (code bug): compiling `WHERE col = 5` over a column holding the
value `0` emits exactly one range-check op (`val < 6`), and that op
passes even though `0 ≠ 5` — the emitted checks do not establish the
lower bound `val ≥ k` of the half-interval `[k, k+1)`. -/
theorem C5_equal_lowering_bug :
    compile_where_equal [0] 5 = [{ value := 0, threshold := 6, u := 6 }] ∧
      (∀ op ∈ compile_where_equal [0] 5, opPasses op) ∧
      (0 : Nat) ≠ 5 := by
  refine ⟨rfl, ?_, by decide⟩
  intro op hop
  simp [compile_where_equal] at hop
  subst hop
  decide

/-! ## Helper lemmas for the Join gate -/

lemma mapRange_getD {α : Type} (f : Nat → α) (m i : Nat) (d : α) (hi : i < m) :
    ((List.range m).map f).getD i d = f i := by
  have h1 : i < ((List.range m).map f).length := by simpa using hi
  rw [List.getD_eq_getElem _ _ h1]
  simp

lemma sortAsc_ne_nil {l : List Nat} (h : l ≠ []) : sortAsc l ≠ [] := by
  unfold sortAsc
  intro hnil
  apply h
  have := List.length_insertionSort (· ≤ ·) l
  rw [hnil] at this
  exact List.length_eq_zero.mp this.symm

lemma sortAsc_chain (l : List Nat) : List.Chain' (· ≤ ·) (sortAsc l) :=
  (List.sorted_insertionSort (· ≤ ·) l).chain'

lemma sortStep_isSome (l : List Nat) :
    (if ¬ l.isEmpty then sort_and_verify l (sortAsc l) else pure []).isSome := by
  by_cases h : l.isEmpty
  · rw [if_neg (by simp [h])]
    rfl
  · rw [if_pos (by simp [h])]
    rw [sort_and_verify_isSome_iff]
    exact ⟨sortAsc_ne_nil (by simpa using h), sortAsc_chain l⟩

lemma bind_isSome_of {α β : Type} {x : Option α} {f : α → Option β}
    (hx : x.isSome) (hf : ∀ a, (f a).isSome) : (x.bind f).isSome := by
  cases x with
  | none => simp at hx
  | some a => simpa using hf a

lemma verify_deduplication_isSome (t1k t2k : List Nat) :
    (verify_deduplication t1k t2k).isSome := by
  unfold verify_deduplication
  by_cases h : ((tMiss t1k t2k).1.isEmpty = true ∧ (tMiss t1k t2k).2.isEmpty = true)
  · rw [if_pos h]
    rfl
  · rw [if_neg h]
    refine bind_isSome_of (sortStep_isSome _) fun a => ?_
    exact bind_isSome_of (sortStep_isSome _) fun b => rfl

lemma join_and_verify_eq (t1k t1v t2k t2v : List Nat) :
    join_and_verify t1k t1v t2k t2v =
      (if ¬ t1k.isEmpty then sort_and_verify t1k (sortAsc t1k) else pure []).bind fun _ =>
        (if ¬ t2k.isEmpty then sort_and_verify t2k (sortAsc t2k) else pure []).bind fun _ =>
          (verify_deduplication t1k t2k).bind fun _ =>
            some (assign_join_with_constraints t1k t1v t2k t2v) := rfl

lemma join_and_verify_eq_some (t1k t1v t2k t2v : List Nat) :
    join_and_verify t1k t1v t2k t2v =
      some (assign_join_with_constraints t1k t1v t2k t2v) := by
  obtain ⟨y1, h1⟩ := Option.isSome_iff_exists.mp (sortStep_isSome t1k)
  obtain ⟨y2, h2⟩ := Option.isSome_iff_exists.mp (sortStep_isSome t2k)
  obtain ⟨u, hu⟩ := Option.isSome_iff_exists.mp (verify_deduplication_isSome t1k t2k)
  rw [join_and_verify_eq, h1, h2, hu]
  rfl

/-! ## Theorems for claim C2 -/

/-- Claim C2 counterexample: for `t1_keys = [2, 1]` and `t2_keys = [1, 2]`
the two sorted key sequences are both `[1, 2]` — equal at position 0 —
yet the match flag assigned at row 0 is `0`, not `1`, and the join gate's
row-0 `key1` input holds the original `2`, not the sorted output `1`. -/
theorem C2_counterexample :
    sortAsc [2, 1] = [1, 2] ∧ sortAsc [1, 2] = [1, 2] ∧
      ((join_and_verify [2, 1] [] [1, 2] []).map fun rows =>
        (rows.getD 0 default).matchFlag) = some 0 ∧
      (0 : Fr) ≠ 1 ∧
      ((join_and_verify [2, 1] [] [1, 2] []).map fun rows =>
        (rows.getD 0 default).key1) = some ((2 : Nat) : Fr) ∧
      ((2 : Nat) : Fr) ≠ ((1 : Nat) : Fr) := by
  refine ⟨rfl, rfl, rfl, zero_ne_one, rfl, ?_⟩
  intro h
  have hv2 : ((2 : Nat) : Fr).val = 2 := ZMod.val_cast_of_lt (by norm_num [PallasP])
  have hv1 : ((1 : Nat) : Fr).val = 1 := ZMod.val_cast_of_lt (by norm_num [PallasP])
  rw [h, hv1] at hv2
  exact absurd hv2 (by norm_num)

/-- Claim C2 (corrected): `JoinChip::join_and_verify` sorts each non-empty
key list through the Sort gate but binds the *original* key sequences
(zero-padded to the longer length) as the join gate's row inputs, and the
match flag at row `i` equals `1` iff both tables still have a record at
`i` and `t1_keys[i] = t2_keys[i]`, else `0`. -/
theorem C2_join_original_keys (t1k t1v t2k t2v : List Nat) :
    ∃ rows, join_and_verify t1k t1v t2k t2v = some rows ∧
      rows.length = max t1k.length t2k.length ∧
      ∀ i, i < max t1k.length t2k.length →
        (rows.getD i default).key1 = ((t1k.getD i 0 : Nat) : Fr) ∧
        (rows.getD i default).key2 = ((t2k.getD i 0 : Nat) : Fr) ∧
        ((rows.getD i default).matchFlag = 1 ↔
          i < t1k.length ∧ i < t2k.length ∧ t1k.getD i 0 = t2k.getD i 0) ∧
        ((rows.getD i default).matchFlag = 0 ↔
          ¬ (i < t1k.length ∧ i < t2k.length ∧ t1k.getD i 0 = t2k.getD i 0)) := by
  refine ⟨assign_join_with_constraints t1k t1v t2k t2v,
    join_and_verify_eq_some t1k t1v t2k t2v, by simp [assign_join_with_constraints], ?_⟩
  intro i hi
  unfold assign_join_with_constraints
  rw [mapRange_getD _ _ _ _ hi]
  refine ⟨rfl, rfl, ?_, ?_⟩
  · by_cases hc : i < t1k.length ∧ i < t2k.length
    · by_cases hk : t1k.getD i 0 = t2k.getD i 0
      · rw [if_pos hc, if_pos hk]
        exact ⟨fun _ => ⟨hc.1, hc.2, hk⟩, fun _ => rfl⟩
      · rw [if_pos hc, if_neg hk]
        exact ⟨fun h01 => absurd h01.symm one_ne_zero, fun hr => absurd hr.2.2 hk⟩
    · rw [if_neg hc]
      exact ⟨fun h01 => absurd h01.symm one_ne_zero,
        fun hr => absurd ⟨hr.1, hr.2.1⟩ hc⟩
  · by_cases hc : i < t1k.length ∧ i < t2k.length
    · by_cases hk : t1k.getD i 0 = t2k.getD i 0
      · rw [if_pos hc, if_pos hk]
        exact ⟨fun h10 => absurd h10 one_ne_zero, fun hr => absurd ⟨hc.1, hc.2, hk⟩ hr⟩
      · rw [if_pos hc, if_neg hk]
        exact ⟨fun _ hr => absurd hr.2.2 hk, fun _ => rfl⟩
    · rw [if_neg hc]
      exact ⟨fun _ hr => absurd ⟨hr.1, hr.2.1⟩ hc, fun _ => rfl⟩

/-- Claim C2 witness: the amended theorem at the concrete key lists
`[1, 2]` and `[1, 3]`. -/
theorem C2_witness :
    ∃ rows, join_and_verify [1, 2] [] [1, 3] [] = some rows ∧
      rows.length = max ([1, 2] : List Nat).length ([1, 3] : List Nat).length ∧
      ∀ i, i < max ([1, 2] : List Nat).length ([1, 3] : List Nat).length →
        (rows.getD i default).key1 = ((([1, 2] : List Nat).getD i 0 : Nat) : Fr) ∧
        (rows.getD i default).key2 = ((([1, 3] : List Nat).getD i 0 : Nat) : Fr) ∧
        ((rows.getD i default).matchFlag = 1 ↔
          i < ([1, 2] : List Nat).length ∧ i < ([1, 3] : List Nat).length ∧
            ([1, 2] : List Nat).getD i 0 = ([1, 3] : List Nat).getD i 0) ∧
        ((rows.getD i default).matchFlag = 0 ↔
          ¬ (i < ([1, 2] : List Nat).length ∧ i < ([1, 3] : List Nat).length ∧
            ([1, 2] : List Nat).getD i 0 = ([1, 3] : List Nat).getD i 0)) :=
  C2_join_original_keys [1, 2] [] [1, 3] []

/-! ## Helper lemmas for the Aggregation gate -/

lemma except_bind_ok {ε α β : Type} (a : α) (f : α → Except ε β) :
    (Except.ok a : Except ε α).bind f = f a := rfl

lemma except_map_ok {ε α β : Type} (a : α) (f : α → β) :
    (Except.ok a : Except ε α).map f = Except.ok (f a) := rfl

lemma aggFirst_ok {k : String}
    (hk : k = "sum" ∨ k = "count" ∨ k = "max" ∨ k = "min") (x : Nat) :
    aggFirst k x = .ok (firstPure k x) := by
  rcases hk with rfl | rfl | rfl | rfl <;> rfl

lemma aggNext_ok {k : String}
    (hk : k = "sum" ∨ k = "count" ∨ k = "max" ∨ k = "min") (r x : Nat)
    (hsum : k = "sum" → r + x < U64) (hcount : k = "count" → r + 1 < U64) :
    aggNext k r x = .ok (stepPure k r x) := by
  rcases hk with rfl | rfl | rfl | rfl
  · show Except.ok ((r + x) % U64) = Except.ok (r + x)
    rw [Nat.mod_eq_of_lt (hsum rfl)]
  · show Except.ok ((r + 1) % U64) = Except.ok (r + 1)
    rw [Nat.mod_eq_of_lt (hcount rfl)]
  · rfl
  · rfl

lemma keyVals_append (l1 l2 : List (Nat × Nat)) (k : Nat) :
    keyVals (l1 ++ l2) k = keyVals l1 k ++ keyVals l2 k := by
  simp [keyVals]

lemma keyVals_singleton_eq (k x : Nat) : keyVals [(k, x)] k = [x] := by
  simp [keyVals]

lemma keyVals_eq_nil {l : List (Nat × Nat)} {k : Nat}
    (h : ∀ p ∈ l, p.1 ≠ k) : keyVals l k = [] := by
  unfold keyVals
  have hf : l.filter (fun p => p.1 == k) = [] := by
    rw [List.filter_eq_nil]
    intro p hp
    simpa using h p hp
  rw [hf]
  rfl

lemma keyVals_sum_le (l : List (Nat × Nat)) (k : Nat) :
    (keyVals l k).sum ≤ (l.map Prod.snd).sum := by
  induction l with
  | nil => simp [keyVals]
  | cons p rest ih =>
    unfold keyVals at ih ⊢
    rw [List.filter_cons]
    by_cases h : (p.1 == k) = true
    · rw [if_pos h]
      simp only [List.map_cons, List.sum_cons]
      omega
    · rw [if_neg h]
      simp only [List.map_cons, List.sum_cons]
      omega

lemma keyVals_length_le (l : List (Nat × Nat)) (k : Nat) :
    (keyVals l k).length ≤ l.length := by
  unfold keyVals
  rw [List.length_map]
  exact List.length_filter_le _ _

lemma aggOf_singleton (k : String) (x : Nat) : aggOf k [x] = firstPure k x := rfl

lemma aggOf_append (k : String) {l : List Nat} (hl : l ≠ []) (x : Nat) :
    aggOf k (l ++ [x]) = stepPure k (aggOf k l) x := by
  cases l with
  | nil => exact absurd rfl hl
  | cons y ys => simp [aggOf, List.foldl_append]

lemma foldl_add_eq (ys : List Nat) :
    ∀ a : Nat, ys.foldl (fun r x => r + x) a = a + ys.sum := by
  induction ys with
  | nil => intro a; simp
  | cons y ys ih =>
    intro a
    rw [List.foldl_cons, ih, List.sum_cons]
    omega

lemma foldl_count_eq (ys : List Nat) :
    ∀ a : Nat, ys.foldl (fun r _ => r + 1) a = a + ys.length := by
  induction ys with
  | nil => intro a; simp
  | cons y ys ih =>
    intro a
    rw [List.foldl_cons, ih, List.length_cons]
    omega

lemma aggOf_sum {l : List Nat} (h : l ≠ []) : aggOf "sum" l = l.sum := by
  cases l with
  | nil => exact absurd rfl h
  | cons y ys =>
    show ys.foldl (stepPure "sum") (firstPure "sum" y) = (y :: ys).sum
    rw [show stepPure "sum" = fun r x => r + x from rfl,
      show firstPure "sum" y = y from rfl, foldl_add_eq, List.sum_cons]

lemma aggOf_count {l : List Nat} (h : l ≠ []) : aggOf "count" l = l.length := by
  cases l with
  | nil => exact absurd rfl h
  | cons y ys =>
    show ys.foldl (stepPure "count") (firstPure "count" y) = (y :: ys).length
    rw [show stepPure "count" = fun r _ => r + 1 from rfl,
      show firstPure "count" y = 1 from rfl, foldl_count_eq, List.length_cons]
    omega

lemma foldl_max_spec (ys : List Nat) : ∀ a : Nat,
    (ys.foldl Nat.max a = a ∨ ys.foldl Nat.max a ∈ ys) ∧
      a ≤ ys.foldl Nat.max a ∧ ∀ x ∈ ys, x ≤ ys.foldl Nat.max a := by
  induction ys with
  | nil => intro a; exact ⟨Or.inl rfl, le_refl a, by simp⟩
  | cons y ys ih =>
    intro a
    simp only [List.foldl_cons]
    obtain ⟨hmem, hle, hub⟩ := ih (Nat.max a y)
    refine ⟨?_, le_trans (Nat.le_max_left a y) hle, ?_⟩
    · rcases hmem with h | h
      · have hch2 : Nat.max a y = a ∨ Nat.max a y = y := by
          rcases Nat.le_total a y with hle2 | hle2
          · exact Or.inr (Nat.max_eq_right hle2)
          · exact Or.inl (Nat.max_eq_left hle2)
        rcases hch2 with h2 | h2
        · exact Or.inl (h.trans h2)
        · exact Or.inr (by rw [h, h2]; exact List.mem_cons_self y ys)
      · exact Or.inr (List.mem_cons_of_mem y h)
    · intro x hx
      rcases List.mem_cons.mp hx with rfl | hx'
      · exact le_trans (Nat.le_max_right a x) hle
      · exact hub x hx'

lemma foldl_min_spec (ys : List Nat) : ∀ a : Nat,
    (ys.foldl Nat.min a = a ∨ ys.foldl Nat.min a ∈ ys) ∧
      ys.foldl Nat.min a ≤ a ∧ ∀ x ∈ ys, ys.foldl Nat.min a ≤ x := by
  induction ys with
  | nil => intro a; exact ⟨Or.inl rfl, le_refl a, by simp⟩
  | cons y ys ih =>
    intro a
    simp only [List.foldl_cons]
    obtain ⟨hmem, hle, hlb⟩ := ih (Nat.min a y)
    refine ⟨?_, le_trans hle (Nat.min_le_left a y), ?_⟩
    · rcases hmem with h | h
      · have hch2 : Nat.min a y = a ∨ Nat.min a y = y := by
          rcases Nat.le_total a y with hle2 | hle2
          · exact Or.inl (Nat.min_eq_left hle2)
          · exact Or.inr (Nat.min_eq_right hle2)
        rcases hch2 with h2 | h2
        · exact Or.inl (h.trans h2)
        · exact Or.inr (by rw [h, h2]; exact List.mem_cons_self y ys)
      · exact Or.inr (List.mem_cons_of_mem y h)
    · intro x hx
      rcases List.mem_cons.mp hx with rfl | hx'
      · exact le_trans hle (Nat.min_le_right a x)
      · exact hlb x hx'

lemma aggOf_max {l : List Nat} (h : l ≠ []) :
    aggOf "max" l ∈ l ∧ ∀ x ∈ l, x ≤ aggOf "max" l := by
  cases l with
  | nil => exact absurd rfl h
  | cons y ys =>
    obtain ⟨hmem, hle, hub⟩ := foldl_max_spec ys y
    have hrw : aggOf "max" (y :: ys) = ys.foldl Nat.max y := rfl
    constructor
    · rw [hrw]
      rcases hmem with h2 | h2
      · rw [h2]; exact List.mem_cons_self y ys
      · exact List.mem_cons_of_mem y h2
    · intro x hx
      rw [hrw]
      rcases List.mem_cons.mp hx with rfl | hx'
      · exact hle
      · exact hub x hx'

lemma aggOf_min {l : List Nat} (h : l ≠ []) :
    aggOf "min" l ∈ l ∧ ∀ x ∈ l, aggOf "min" l ≤ x := by
  cases l with
  | nil => exact absurd rfl h
  | cons y ys =>
    obtain ⟨hmem, hle, hlb⟩ := foldl_min_spec ys y
    have hrw : aggOf "min" (y :: ys) = ys.foldl Nat.min y := rfl
    constructor
    · rw [hrw]
      rcases hmem with h2 | h2
      · rw [h2]; exact List.mem_cons_self y ys
      · exact List.mem_cons_of_mem y h2
    · intro x hx
      rw [hrw]
      rcases List.mem_cons.mp hx with rfl | hx'
      · exact hle
      · exact hlb x hx'

lemma isAggOf_aggOf {k : String}
    (hk : k = "sum" ∨ k = "count" ∨ k = "max" ∨ k = "min")
    {l : List Nat} (h : l ≠ []) : isAggOf k l (aggOf k l) := by
  rcases hk with rfl | rfl | rfl | rfl
  · exact ⟨fun _ => aggOf_sum h, fun hc => absurd hc (by decide),
      fun hc => absurd hc (by decide), fun hc => absurd hc (by decide)⟩
  · exact ⟨fun hc => absurd hc (by decide), fun _ => aggOf_count h,
      fun hc => absurd hc (by decide), fun hc => absurd hc (by decide)⟩
  · exact ⟨fun hc => absurd hc (by decide), fun hc => absurd hc (by decide),
      fun _ => aggOf_max h, fun hc => absurd hc (by decide)⟩
  · exact ⟨fun hc => absurd hc (by decide), fun hc => absurd hc (by decide),
      fun hc => absurd hc (by decide), fun _ => aggOf_min h⟩

lemma aggregate_and_verify_eq (g v : List Nat) (k : String) :
    aggregate_and_verify g v k =
      if g.length ≠ v.length then .error .synthesis
      else if g.isEmpty then .ok []
      else
        (aggFirst k (v.headD 0)).bind fun r0 =>
          (aggLoop k (g.headD 0) r0 (g.tail.zip v.tail)).map fun rest => r0 :: rest := rfl

lemma aggLoop_spec {k : String}
    (hk : k = "sum" ∨ k = "count" ∨ k = "max" ∨ k = "min") :
    ∀ (rest pre : List (Nat × Nat)) (kp r : Nat),
      (∀ p ∈ pre, p.1 ≤ kp) →
      List.Chain' (· ≤ ·) (kp :: rest.map Prod.fst) →
      keyVals pre kp ≠ [] →
      r = aggOf k (keyVals pre kp) →
      ((pre ++ rest).map Prod.snd).sum < U64 →
      (pre ++ rest).length < U64 →
      ∃ out, aggLoop k kp r rest = .ok out ∧ out.length = rest.length ∧
        ∀ i, i < rest.length →
          out.getD i 0 =
            aggOf k (keyVals (pre ++ rest.take (i + 1)) ((rest.getD i (0, 0)).1)) := by
  intro rest
  induction rest with
  | nil =>
    intro pre kp r _ _ _ _ _ _
    exact ⟨[], rfl, rfl, fun i hi => absurd hi (by simp)⟩
  | cons hd rest ih =>
    obtain ⟨kc, x⟩ := hd
    intro pre kp r htot hch hne hr hsum hlen
    simp only [List.map_cons] at hch
    have hkp_le : kp ≤ kc := (List.chain'_cons.mp hch).1
    have hch' : List.Chain' (· ≤ ·) (kc :: rest.map Prod.fst) := (List.chain'_cons.mp hch).2
    have happ : pre ++ (kc, x) :: rest = (pre ++ [(kc, x)]) ++ rest :=
      List.append_cons pre (kc, x) rest
    have hsum2 : (((pre ++ [(kc, x)]) ++ rest).map Prod.snd).sum < U64 := by
      rw [← happ]; exact hsum
    have hlen2 : ((pre ++ [(kc, x)]) ++ rest).length < U64 := by
      rw [← happ]; exact hlen
    have hkv : keyVals (pre ++ [(kc, x)]) kc = keyVals pre kc ++ [x] := by
      rw [keyVals_append, keyVals_singleton_eq]
    by_cases hkk : kc = kp
    · -- key unchanged: boundary flag 0, accumulator continues via `aggNext`
      have hsum' : k = "sum" → r + x < U64 := by
        intro hks
        subst hks
        have h1 : r = (keyVals pre kp).sum := by rw [hr, aggOf_sum hne]
        have h2 := keyVals_sum_le pre kp
        have h4 : ((pre ++ (kc, x) :: rest).map Prod.snd).sum =
            (pre.map Prod.snd).sum + (x + (rest.map Prod.snd).sum) := by
          simp [List.map_append, List.sum_append]
        omega
      have hcount' : k = "count" → r + 1 < U64 := by
        intro hks
        subst hks
        have h1 : r = (keyVals pre kp).length := by rw [hr, aggOf_count hne]
        have h2 := keyVals_length_le pre kp
        have h4 : (pre ++ (kc, x) :: rest).length = pre.length + (rest.length + 1) := by
          simp [List.length_append]
        omega
      have hstep : aggNext k r x = .ok (stepPure k r x) := aggNext_ok hk r x hsum' hcount'
      have hprekc : keyVals pre kc ≠ [] := by rw [hkk]; exact hne
      have hr2 : stepPure k r x = aggOf k (keyVals (pre ++ [(kc, x)]) kc) := by
        rw [hkv, aggOf_append k hprekc x, hkk, ← hr]
      have htot' : ∀ p ∈ pre ++ [(kc, x)], p.1 ≤ kc := by
        intro p hp
        rcases List.mem_append.mp hp with hp | hp
        · rw [hkk]; exact htot p hp
        · simp only [List.mem_singleton] at hp
          rw [hp]
      have hne' : keyVals (pre ++ [(kc, x)]) kc ≠ [] := by
        rw [hkv]; simp
      obtain ⟨out, hout, hlo, hspec⟩ :=
        ih (pre ++ [(kc, x)]) kc (stepPure k r x) htot' hch' hne' hr2 hsum2 hlen2
      refine ⟨stepPure k r x :: out, ?_, by simp [hlo], ?_⟩
      · show (if kc ≠ kp then aggFirst k x else aggNext k r x).bind _ = _
        rw [if_neg (not_not_intro hkk), hstep]
        show (aggLoop k kc (stepPure k r x) rest).map (fun tail => stepPure k r x :: tail) = _
        rw [hout]
        rfl
      · intro i hi
        cases i with
        | zero =>
          rw [List.getD_cons_zero]
          show stepPure k r x = aggOf k
            (keyVals (pre ++ ((kc, x) :: rest).take (0 + 1)) ((((kc, x) :: rest).getD 0 (0, 0)).1))
          rw [show ((kc, x) :: rest).take (0 + 1) = [(kc, x)] from rfl,
            show ((((kc, x) :: rest).getD 0 (0, 0)).1) = kc from rfl]
          exact hr2
        | succ j =>
          have hj : j < rest.length := by
            simp only [List.length_cons] at hi
            omega
          have hs := hspec j hj
          rw [List.getD_cons_succ, List.getD_cons_succ,
            show ((kc, x) :: rest).take (j + 1 + 1) = (kc, x) :: rest.take (j + 1) from
              List.take_succ_cons,
            show pre ++ ((kc, x) :: rest.take (j + 1)) = (pre ++ [(kc, x)]) ++ rest.take (j + 1)
              from List.append_cons pre (kc, x) (rest.take (j + 1))]
          exact hs
    · -- key changed: boundary flag 1, accumulator restarts via `aggFirst`
      have hstep : aggFirst k x = .ok (firstPure k x) := aggFirst_ok hk x
      have hkp_lt : kp < kc := lt_of_le_of_ne hkp_le (fun h => hkk h.symm)
      have hprenil : keyVals pre kc = [] := by
        refine keyVals_eq_nil fun p hp => ?_
        have := htot p hp
        omega
      have hr2 : firstPure k x = aggOf k (keyVals (pre ++ [(kc, x)]) kc) := by
        rw [hkv, hprenil, List.nil_append, aggOf_singleton]
      have htot' : ∀ p ∈ pre ++ [(kc, x)], p.1 ≤ kc := by
        intro p hp
        rcases List.mem_append.mp hp with hp | hp
        · exact le_trans (htot p hp) hkp_le
        · simp only [List.mem_singleton] at hp
          rw [hp]
      have hne' : keyVals (pre ++ [(kc, x)]) kc ≠ [] := by
        rw [hkv, hprenil, List.nil_append]
        simp
      obtain ⟨out, hout, hlo, hspec⟩ :=
        ih (pre ++ [(kc, x)]) kc (firstPure k x) htot' hch' hne' hr2 hsum2 hlen2
      refine ⟨firstPure k x :: out, ?_, by simp [hlo], ?_⟩
      · show (if kc ≠ kp then aggFirst k x else aggNext k r x).bind _ = _
        rw [if_pos hkk, hstep]
        show (aggLoop k kc (firstPure k x) rest).map (fun tail => firstPure k x :: tail) = _
        rw [hout]
        rfl
      · intro i hi
        cases i with
        | zero =>
          rw [List.getD_cons_zero]
          show firstPure k x = aggOf k
            (keyVals (pre ++ ((kc, x) :: rest).take (0 + 1)) ((((kc, x) :: rest).getD 0 (0, 0)).1))
          rw [show ((kc, x) :: rest).take (0 + 1) = [(kc, x)] from rfl,
            show ((((kc, x) :: rest).getD 0 (0, 0)).1) = kc from rfl]
          exact hr2
        | succ j =>
          have hj : j < rest.length := by
            simp only [List.length_cons] at hi
            omega
          have hs := hspec j hj
          rw [List.getD_cons_succ, List.getD_cons_succ,
            show ((kc, x) :: rest).take (j + 1 + 1) = (kc, x) :: rest.take (j + 1) from
              List.take_succ_cons,
            show pre ++ ((kc, x) :: rest.take (j + 1)) = (pre ++ [(kc, x)]) ++ rest.take (j + 1)
              from List.append_cons pre (kc, x) (rest.take (j + 1))]
          exact hs

lemma keyVals_take_eq_full (l : List (Nat × Nat)) (i : Nat) (hi : i < l.length)
    (hch : List.Chain' (· ≤ ·) (l.map Prod.fst))
    (hlast : i + 1 = l.length ∨ (l.getD i (0, 0)).1 ≠ (l.getD (i + 1) (0, 0)).1) :
    keyVals (l.take (i + 1)) ((l.getD i (0, 0)).1) = keyVals l ((l.getD i (0, 0)).1) := by
  have hsplit := keyVals_append (l.take (i + 1)) (l.drop (i + 1)) ((l.getD i (0, 0)).1)
  rw [List.take_append_drop] at hsplit
  suffices h : keyVals (l.drop (i + 1)) ((l.getD i (0, 0)).1) = [] by
    rw [hsplit, h, List.append_nil]
  by_cases hend : l.length ≤ i + 1
  · rw [List.drop_eq_nil_of_le hend]
    rfl
  · push_neg at hend
    have hne : (l.getD i (0, 0)).1 ≠ (l.getD (i + 1) (0, 0)).1 := by
      rcases hlast with h | h
      · omega
      · exact h
    have hadj : (l.getD i (0, 0)).1 ≤ (l.getD (i + 1) (0, 0)).1 := by
      have hc := List.chain'_iff_get.mp hch i (by simp only [List.length_map]; omega)
      rw [List.getD_eq_getElem _ _ hi, List.getD_eq_getElem _ _ hend]
      simpa using hc
    have hlt : (l.getD i (0, 0)).1 < (l.getD (i + 1) (0, 0)).1 := lt_of_le_of_ne hadj hne
    refine keyVals_eq_nil fun p hp => ?_
    obtain ⟨j, hj, hpj⟩ := List.mem_iff_getElem.mp hp
    have hjlen : j < l.length - (i + 1) := by
      simpa [List.length_drop] using hj
    have hj' : i + 1 + j < l.length := by omega
    have hpeq : p = l.get ⟨i + 1 + j, hj'⟩ := by
      rw [← hpj]
      simp [List.getElem_drop]
    have hmono : (l.getD (i + 1) (0, 0)).1 ≤ p.1 := by
      rw [hpeq, List.getD_eq_getElem _ _ hend]
      rcases Nat.eq_zero_or_pos j with rfl | hjpos
      · simp
      · have hpw := List.chain'_iff_pairwise.mp hch
        have hpg := List.pairwise_iff_get.mp hpw
          ⟨i + 1, by simp only [List.length_map]; omega⟩
          ⟨i + 1 + j, by simp only [List.length_map]; omega⟩
          (by simp only [Fin.mk_lt_mk]; omega)
        simpa using hpg
    have hplt : (l.getD i (0, 0)).1 < p.1 := lt_of_lt_of_le hlt hmono
    omega

lemma zip_getD_fst (g v : List Nat) (i : Nat) (hlen : g.length = v.length) :
    ((g.zip v).getD i (0, 0)).1 = g.getD i 0 := by
  by_cases hi : i < g.length
  · have hiz : i < (g.zip v).length := by
      rw [List.length_zip, hlen, Nat.min_self]
      omega
    rw [List.getD_eq_getElem _ _ hiz, List.getD_eq_getElem _ _ hi]
    simp [List.getElem_zip]
  · push_neg at hi
    rw [List.getD_eq_default _ _ hi,
      List.getD_eq_default _ _ (show (g.zip v).length ≤ i by
        rw [List.length_zip, hlen, Nat.min_self]; omega)]

/-! ## Theorems for claims C3, C7 and C10 -/

/-- Claim C3 counterexample: at `g = [1, 1]`, `v = [2^63, 2^63]`, kind
`"sum"` — sorted `u64` inputs of equal positive length — the `u64` SUM
accumulator `current_result + values[i]` wraps at row 1, the final row
of the single group: the assigned result cell holds `0` while the
group's scalar sum is `2^64`, so the unqualified claim fails. -/
theorem C3_counterexample :
    List.Chain' (· ≤ ·) [1, 1] ∧
      ([1, 1] : List Nat).length = ([2 ^ 63, 2 ^ 63] : List Nat).length ∧
      (∀ x ∈ ([2 ^ 63, 2 ^ 63] : List Nat), x < 2 ^ 64) ∧
      aggregate_and_verify [1, 1] [2 ^ 63, 2 ^ 63] "sum" = .ok [2 ^ 63, 0] ∧
      isLastRow [1, 1] 1 ∧
      groupVals [1, 1] [2 ^ 63, 2 ^ 63] (([1, 1] : List Nat).getD 1 0) =
        [2 ^ 63, 2 ^ 63] ∧
      ¬ isAggOf "sum" (groupVals [1, 1] [2 ^ 63, 2 ^ 63] (([1, 1] : List Nat).getD 1 0))
        (([2 ^ 63, 0] : List Nat).getD 1 0) := by
  refine ⟨List.chain'_pair.mpr (le_refl 1), rfl, by decide, rfl, Or.inl rfl, rfl, ?_⟩
  intro h
  exact absurd (h.1 rfl) (by decide)

/-- Claim C3 (corrected): for every sorted key list `g`, parallel value
list `v` with `|g| = |v| > 0` and aggregate kind in
{sum, count, max, min}, *provided the `u64` accumulators do not overflow*
(`v.sum < 2^64` and `|v| < 2^64`), the result value assigned by
`AggregationChip::aggregate_and_verify` at the last row of each group
(the row after which the key changes, or the final row) is the scalar
aggregate of that group's values: their sum, their count, their maximum
or their minimum.  Without the proviso the claim fails by overflow
wrap-around (see the counterexample). -/
theorem C3_aggregate_group_final (g v : List Nat) (k : String)
    (hk : k = "sum" ∨ k = "count" ∨ k = "max" ∨ k = "min")
    (hs : List.Chain' (· ≤ ·) g)
    (hlen : g.length = v.length) (hnil : g ≠ [])
    (hvsum : v.sum < U64) (hvlen : v.length < U64) :
    ∃ out, aggregate_and_verify g v k = .ok out ∧ out.length = g.length ∧
      ∀ i, i < g.length → isLastRow g i →
        isAggOf k (groupVals g v (g.getD i 0)) (out.getD i 0) := by
  cases g with
  | nil => exact absurd rfl hnil
  | cons g0 gt =>
    cases v with
    | nil => simp at hlen
    | cons v0 vt =>
      have hlen' : gt.length = vt.length := by simpa using hlen
      have hzlen : (gt.zip vt).length = vt.length := by
        rw [List.length_zip, hlen', Nat.min_self]
      have hzip_fst : (gt.zip vt).map Prod.fst = gt := List.map_fst_zip gt vt (by omega)
      have hch0 : List.Chain' (· ≤ ·) (g0 :: (gt.zip vt).map Prod.fst) := by
        rw [hzip_fst]; exact hs
      have hne0 : keyVals [(g0, v0)] g0 ≠ [] := by
        rw [keyVals_singleton_eq]; simp
      have hr0 : firstPure k v0 = aggOf k (keyVals [(g0, v0)] g0) := by
        rw [keyVals_singleton_eq, aggOf_singleton]
      have hl : [(g0, v0)] ++ gt.zip vt = (g0 :: gt).zip (v0 :: vt) := rfl
      have hsum0 : (([(g0, v0)] ++ gt.zip vt).map Prod.snd).sum < U64 := by
        rw [hl, List.map_snd_zip _ _ (by simp only [List.length_cons]; omega)]
        exact hvsum
      have hlen0 : ([(g0, v0)] ++ gt.zip vt).length < U64 := by
        rw [hl]
        have : ((g0 :: gt).zip (v0 :: vt)).length = vt.length + 1 := by
          rw [List.length_zip]
          simp only [List.length_cons]
          rw [show gt.length = vt.length from hlen', Nat.min_self]
        rw [this]
        simp only [List.length_cons] at hvlen
        omega
      obtain ⟨out, hout, hlo, hspec⟩ :=
        aggLoop_spec hk (gt.zip vt) [(g0, v0)] g0 (firstPure k v0)
          (by simp) hch0 hne0 hr0 hsum0 hlen0
      refine ⟨firstPure k v0 :: out, ?_, ?_, ?_⟩
      · rw [aggregate_and_verify_eq, if_neg (not_not_intro hlen), if_neg (by simp)]
        simp only [List.headD_cons, List.tail_cons]
        rw [aggFirst_ok hk]
        show (aggLoop k g0 (firstPure k v0) (gt.zip vt)).map
          (fun rest => firstPure k v0 :: rest) = _
        rw [hout]
        rfl
      · simp only [List.length_cons, hlo, hzlen]
        omega
      · intro i hi hlast
        have hlz : ((g0 :: gt).zip (v0 :: vt)).length = (g0 :: gt).length := by
          rw [List.length_zip]
          simp only [List.length_cons]
          rw [show gt.length = vt.length from hlen', Nat.min_self, ← hlen']
        have hiz : i < ((g0 :: gt).zip (v0 :: vt)).length := by rw [hlz]; exact hi
        have hkey : (((g0 :: gt).zip (v0 :: vt)).getD i (0, 0)).1 = (g0 :: gt).getD i 0 :=
          zip_getD_fst _ _ i hlen
        have hlast' : i + 1 = ((g0 :: gt).zip (v0 :: vt)).length ∨
            (((g0 :: gt).zip (v0 :: vt)).getD i (0, 0)).1 ≠
              (((g0 :: gt).zip (v0 :: vt)).getD (i + 1) (0, 0)).1 := by
          rcases hlast with h | h
          · left; rw [hlz]; exact h
          · right
            rw [hkey, zip_getD_fst _ _ (i + 1) hlen]
            exact h
        have hchl : List.Chain' (· ≤ ·) (((g0 :: gt).zip (v0 :: vt)).map Prod.fst) := by
          rw [show ((g0 :: gt).zip (v0 :: vt)).map Prod.fst = g0 :: gt from
            List.map_fst_zip _ _ (by simp only [List.length_cons]; omega)]
          exact hs
        have hfull := keyVals_take_eq_full ((g0 :: gt).zip (v0 :: vt)) i hiz hchl hlast'
        -- the computed cell value equals the aggregate of the run prefix
        have hall : (firstPure k v0 :: out).getD i 0 =
            aggOf k (keyVals (((g0 :: gt).zip (v0 :: vt)).take (i + 1))
              ((((g0 :: gt).zip (v0 :: vt)).getD i (0, 0)).1)) := by
          cases i with
          | zero =>
            rw [List.getD_cons_zero]
            rw [show ((g0 :: gt).zip (v0 :: vt)).take (0 + 1) = [(g0, v0)] from rfl,
              show ((((g0 :: gt).zip (v0 :: vt)).getD 0 (0, 0)).1) = g0 from rfl]
            exact hr0
          | succ j =>
            have hj : j < (gt.zip vt).length := by
              rw [hzlen, ← hlen']
              simp only [List.length_cons] at hi
              omega
            have hs2 := hspec j hj
            rw [List.getD_cons_succ]
            rw [show ((g0 :: gt).zip (v0 :: vt)).take (j + 1 + 1) =
                (g0, v0) :: (gt.zip vt).take (j + 1) from List.take_succ_cons,
              show (((g0 :: gt).zip (v0 :: vt)).getD (j + 1) (0, 0)) =
                ((gt.zip vt).getD j (0, 0)) from List.getD_cons_succ,
              show (g0, v0) :: (gt.zip vt).take (j + 1) =
                [(g0, v0)] ++ (gt.zip vt).take (j + 1) from rfl]
            exact hs2
        -- the group is nonempty: row i itself belongs to it
        have hmemtake : ((g0 :: gt).zip (v0 :: vt)).get ⟨i, hiz⟩ ∈
            ((g0 :: gt).zip (v0 :: vt)).take (i + 1) := by
          have hit : i < (((g0 :: gt).zip (v0 :: vt)).take (i + 1)).length := by
            rw [List.length_take]
            exact lt_min_iff.mpr ⟨Nat.lt_succ_self i, hiz⟩
          have hgt : (((g0 :: gt).zip (v0 :: vt)).take (i + 1)).get ⟨i, hit⟩ =
              ((g0 :: gt).zip (v0 :: vt)).get ⟨i, hiz⟩ := by
            rw [List.get_eq_getElem, List.get_eq_getElem]
            exact List.getElem_take _
          rw [← hgt]
          exact List.get_mem _ _ _
        have hne2 : keyVals (((g0 :: gt).zip (v0 :: vt)).take (i + 1))
            ((((g0 :: gt).zip (v0 :: vt)).getD i (0, 0)).1) ≠ [] := by
          apply List.ne_nil_of_mem
            (a := (((g0 :: gt).zip (v0 :: vt)).get ⟨i, hiz⟩).2)
          unfold keyVals
          refine List.mem_map.mpr ⟨((g0 :: gt).zip (v0 :: vt)).get ⟨i, hiz⟩, ?_, rfl⟩
          refine List.mem_filter.mpr ⟨hmemtake, ?_⟩
          rw [List.getD_eq_getElem _ _ hiz]
          simp
        show isAggOf k (groupVals (g0 :: gt) (v0 :: vt) ((g0 :: gt).getD i 0))
          ((firstPure k v0 :: out).getD i 0)
        rw [show groupVals (g0 :: gt) (v0 :: vt) ((g0 :: gt).getD i 0) =
            keyVals ((g0 :: gt).zip (v0 :: vt)) ((g0 :: gt).getD i 0) from rfl,
          ← hkey, ← hfull, hall]
        exact isAggOf_aggOf hk hne2

/-- Claim C3 witness: the theorem at `g = [1, 1, 2]`, `v = [10, 20, 30]`,
kind `"sum"`. -/
theorem C3_witness :
    List.Chain' (· ≤ ·) [1, 1, 2] ∧
      ∃ out, aggregate_and_verify [1, 1, 2] [10, 20, 30] "sum" = .ok out ∧
        out.length = ([1, 1, 2] : List Nat).length ∧
        ∀ i, i < ([1, 1, 2] : List Nat).length → isLastRow [1, 1, 2] i →
          isAggOf "sum" (groupVals [1, 1, 2] [10, 20, 30] (([1, 1, 2] : List Nat).getD i 0))
            (out.getD i 0) := by
  have hchain : List.Chain' (· ≤ ·) ([1, 1, 2] : List Nat) :=
    List.chain'_cons.mpr ⟨le_refl 1, List.chain'_pair.mpr (by norm_num)⟩
  exact ⟨hchain,
    C3_aggregate_group_final [1, 1, 2] [10, 20, 30] "sum" (Or.inl rfl) hchain rfl
      (by simp) (by decide) (by decide)⟩

lemma aggFirst_err {k : String} (h1 : k ≠ "sum") (h2 : k ≠ "count")
    (h3 : k ≠ "max") (h4 : k ≠ "min") (x : Nat) :
    aggFirst k x = .error .synthesis := by
  unfold aggFirst
  split
  · exact absurd rfl h1
  · exact absurd rfl h2
  · exact absurd rfl h3
  · exact absurd rfl h4
  · rfl

/-- Claim C7 counterexample: on the empty (equal-length) inputs with the
unrecognized kind `"avg"`, `aggregate_and_verify` returns `Ok([])`
rather than `Err(Error::Synthesis)` — the claim's second clause fails. -/
theorem C7_counterexample :
    aggregate_and_verify [] [] "avg" = .ok [] ∧
      ("avg" : String) ∉ (["sum", "count", "max", "min"] : List String) ∧
      (Except.ok ([] : List Nat) : Except PlonkError (List Nat)) ≠ .error .synthesis := by
  exact ⟨rfl, by decide, by simp⟩

/-- Claim C7 (corrected): `AggregationChip::aggregate_and_verify` returns
`Err(Error::Synthesis)` whenever `|group_keys| ≠ |values|`, and whenever
the aggregate kind string is not one of `"sum"`, `"count"`, `"max"`,
`"min"` *and the (equal-length) inputs are non-empty*; with empty inputs
the kind is never examined. -/
theorem C7_aggregation_errors (g v : List Nat) (k : String) :
    (g.length ≠ v.length → aggregate_and_verify g v k = .error .synthesis) ∧
      (g.length = v.length → g ≠ [] →
        k ∉ (["sum", "count", "max", "min"] : List String) →
        aggregate_and_verify g v k = .error .synthesis) := by
  constructor
  · intro hne
    rw [aggregate_and_verify_eq, if_pos hne]
  · intro hleq hgne hk
    simp only [List.mem_cons, List.not_mem_nil, or_false, not_or] at hk
    obtain ⟨h1, h2, h3, h4⟩ := hk
    rw [aggregate_and_verify_eq, if_neg (not_not_intro hleq),
      if_neg (by simp [List.isEmpty_iff, hgne]), aggFirst_err h1 h2 h3 h4]
    rfl

/-- Claim C7 witness: the corrected theorem at a length mismatch
(`[3]` vs `[4, 5]`) and at an unknown kind on non-empty input
(`[3]`, `[4]`, `"avg"`). -/
theorem C7_witness :
    aggregate_and_verify [3] [4, 5] "sum" = .error .synthesis ∧
      aggregate_and_verify [3] [4] "avg" = .error .synthesis :=
  ⟨(C7_aggregation_errors [3] [4, 5] "sum").1 (by decide),
    (C7_aggregation_errors [3] [4] "avg").2 (by decide) (by simp) (by decide)⟩

/-- Claim C10 (confirmed): for empty inputs, `aggregate_and_verify`
returns `Ok` with an empty result vector for *every* aggregate kind
string, including unrecognized kinds — the kind is never validated when
the input is empty. -/
theorem C10_empty_input_skips_kind_validation (k : String) :
    aggregate_and_verify [] [] k = .ok [] := rfl

/-- Claim C10 witness: the theorem at the unrecognized kind `"median"`. -/
theorem C10_witness : aggregate_and_verify [] [] "median" = .ok [] :=
  C10_empty_input_skips_kind_validation "median"

end Poneglyph
